import Mathlib

/-!
Verification of the Motus bot (`src/main.js`).

The development shallowly embeds the game logic of the bot:
letters are `Char`, words are `List Char`, JavaScript objects keyed by
numbers/letters are association lists, JavaScript `Set`s are duplicate-free
lists, and the mutating functions of the source become pure state
transformers.  DOM access, network access and `localStorage` are modelled by
explicit parameters (the text content of cells, the fetched lines, the
persisted word lists), following the external-interface contracts of the
specification.
-/

namespace Motus

/-- A word: a list of letters, as produced by splitting a JS string. -/
abbrev Word := List Char

/-- One cell of feedback, as produced by `getRowData`:
a letter together with its status string. -/
structure Cell where
  letter : Char
  status : String
deriving DecidableEq

/-- The constraint state of the game (`gameState` in `main.js`):
`wellPlaced` is the object mapping position → letter,
`misplaced` and `absent` are `Set`s of letters, and
`excludedPositions` is the object mapping letter → array of positions. -/
structure GameState where
  wellPlaced : List (Nat × Char)
  misplaced : List Char
  absent : List Char
  excludedPositions : List (Char × List Nat)
deriving DecidableEq

/-- JS object assignment `m[i] = c` on a number-keyed object:
replace the binding of key `i` if present, otherwise add it. -/
def setKey : List (Nat × Char) → Nat → Char → List (Nat × Char)
  | [], i, c => [(i, c)]
  | p :: m, i, c => if p.1 = i then (i, c) :: m else p :: setKey m i c

/-- JS `Set.add`: append the element unless it is already present. -/
def addToSet (s : List Char) (c : Char) : List Char :=
  if s.contains c then s else s ++ [c]

/-- JS `Set.delete`: remove the element. -/
def delFromSet (s : List Char) (c : Char) : List Char :=
  s.filter (fun x => x != c)

/-- JS `obj[letter] ||= []; obj[letter].push(i)` on the
letter-keyed `excludedPositions` object. -/
def pushExcluded : List (Char × List Nat) → Char → Nat → List (Char × List Nat)
  | [], c, i => [(c, [i])]
  | p :: m, c, i => if p.1 = c then (p.1, p.2 ++ [i]) :: m else p :: pushExcluded m c i

/-- JS `gameState.excludedPositions[l] || []`. -/
def excludedOf (st : GameState) (c : Char) : List Nat :=
  (st.excludedPositions.lookup c).getD []

/-- JS `Object.values(gameState.wellPlaced)`. -/
def wellPlacedValues (st : GameState) : List Char :=
  st.wellPlaced.map Prod.snd

/-- The body of the `forEach` in `updateGameState`: fold one feedback cell
(at array index `i`) into the state. -/
def applyEntry (st : GameState) (i : Nat) (c : Cell) : GameState :=
  if c.status = "wellPlaced" then
    { st with wellPlaced := setKey st.wellPlaced i c.letter,
              absent := delFromSet st.absent c.letter }
  else if c.status = "misplaced" then
    { st with misplaced := addToSet st.misplaced c.letter,
              absent := delFromSet st.absent c.letter,
              excludedPositions := pushExcluded st.excludedPositions c.letter i }
  else if c.status = "absent" then
    if (wellPlacedValues st).contains c.letter || st.misplaced.contains c.letter
    then st
    else { st with absent := addToSet st.absent c.letter }
  else st

/-- `updateGameState`, processing the row from array index `i` upward. -/
def updateGameStateFrom (st : GameState) (i : Nat) : List Cell → GameState
  | [] => st
  | c :: cs => updateGameStateFrom (applyEntry st i c) (i + 1) cs

/-- `updateGameState(gameState, rowData)` of `main.js` as a pure function. -/
def updateGameState (st : GameState) (row : List Cell) : GameState :=
  updateGameStateFrom st 0 row

/-- A sequence of `updateGameState` calls, one per feedback row. -/
def applyRows (st : GameState) (rows : List (List Cell)) : GameState :=
  rows.foldl updateGameState st

/-- `initializeGameStateFromGrid` of `main.js`.  The first grid row is given
as the list of pre-filled letters per cell (`none` models a cell whose
trimmed text is empty or `"."`, which the source skips). -/
def initGameStateFromGrid (prefill : List (Option Char)) : GameState :=
  { wellPlaced := prefill.enum.filterMap (fun p => p.2.map (fun c => (p.1, c))),
    misplaced := [], absent := [], excludedPositions := [] }

/-- The predicate inside `wordList.find(...)` of `findNextCandidate`:
well-placed letters match, misplaced letters occur and avoid their excluded
positions, absent letters do not occur, and the word was not already
accepted. -/
def wordMatches (st : GameState) (validAnswers : List Word) (word : Word) : Bool :=
  st.wellPlaced.all (fun p => word.get? p.1 == some p.2) &&
  st.misplaced.all (fun l =>
    word.contains l && !((excludedOf st l).any (fun pos => word.get? pos == some l))) &&
  st.absent.all (fun l => !word.contains l) &&
  !validAnswers.contains word

/-- `findNextCandidate(wordList, gameState, validAnswers)` of `main.js`:
the first word of the list satisfying the filter, else `none`. -/
def findNextCandidate (wordList : List Word) (st : GameState)
    (validAnswers : List Word) : Option Word :=
  wordList.find? (wordMatches st validAnswers)

/-- Status derivation of `getRowData`: `"wellPlaced"` for a green cell,
`"misplaced"` for an orange cell, `"absent"` otherwise. -/
def cellStatus (classes : List String) : String :=
  if classes.contains "green" then "wellPlaced"
  else if classes.contains "orange" then "misplaced"
  else "absent"

/-- `getRowData` of `main.js`: each cell is given by its (trimmed,
lowercased) letter together with the class list of its inner element. -/
def getRowData (row : List (Char × List String)) : List Cell :=
  row.map (fun p => { letter := p.1, status := cellStatus p.2 })

end Motus

namespace Motus

/-! ## Corpus normalization (`fetchFrenchWordList` and the pool filter) -/

/-- A combining diacritical mark (the range removed by
`replace(/[̀-ͯ]/g, "")`). -/
def isCombiningMark (c : Char) : Bool :=
  0x300 ≤ c.toNat && c.toNat ≤ 0x36F

/-- JS `toLowerCase` restricted to the Latin letters the word source uses:
ASCII capitals and the Latin-1 capitals (including those with diacritics,
`Æ`, and `Œ`) map to their lowercase forms. -/
def jsCharLower (c : Char) : Char :=
  if 'A' ≤ c && c ≤ 'Z' then Char.ofNat (c.toNat + 32)
  else if 0xC0 ≤ c.toNat && c.toNat ≤ 0xDE && c.toNat != 0xD7 then Char.ofNat (c.toNat + 32)
  else if c = 'Œ' then 'œ'
  else c

/-- JS `normalize("NFD")` restricted to the precomposed lowercase Latin
letters of French: each decomposes into its base letter followed by a
combining mark; every other character is left alone. -/
def nfdChar (c : Char) : List Char :=
  if c = 'à' then ['a', Char.ofNat 0x300]
  else if c = 'â' then ['a', Char.ofNat 0x302]
  else if c = 'ä' then ['a', Char.ofNat 0x308]
  else if c = 'ç' then ['c', Char.ofNat 0x327]
  else if c = 'è' then ['e', Char.ofNat 0x300]
  else if c = 'é' then ['e', Char.ofNat 0x301]
  else if c = 'ê' then ['e', Char.ofNat 0x302]
  else if c = 'ë' then ['e', Char.ofNat 0x308]
  else if c = 'î' then ['i', Char.ofNat 0x302]
  else if c = 'ï' then ['i', Char.ofNat 0x308]
  else if c = 'ô' then ['o', Char.ofNat 0x302]
  else if c = 'ö' then ['o', Char.ofNat 0x308]
  else if c = 'ù' then ['u', Char.ofNat 0x300]
  else if c = 'û' then ['u', Char.ofNat 0x302]
  else if c = 'ü' then ['u', Char.ofNat 0x308]
  else if c = 'ÿ' then ['y', Char.ofNat 0x308]
  else [c]

/-- JS `replace(/œ/g, "oe").replace(/æ/g, "ae")`, per character. -/
def expandLigature (c : Char) : List Char :=
  if c = 'œ' then ['o', 'e'] else if c = 'æ' then ['a', 'e'] else [c]

/-- JS `String.trim`. -/
def jsTrim (w : List Char) : List Char :=
  ((w.dropWhile Char.isWhitespace).reverse.dropWhile Char.isWhitespace).reverse

/-- The normalization applied to each raw entry in `fetchFrenchWordList`:
trim, lowercase, NFD-decompose, strip combining marks, expand ligatures. -/
def normalizeEntry (w : List Char) : List Char :=
  ((((jsTrim w).map jsCharLower).flatMap nfdChar).filter
    (fun c => !isCombiningMark c)).flatMap expandLigature

/-- The filter of `fetchFrenchWordList`: the entry is non-empty and matches
`/^[a-z]+$/`. -/
def isGoodWord (w : List Char) : Bool :=
  !w.isEmpty && w.all (fun c => 'a' ≤ c && c ≤ 'z')

/-- `Array.from(new Set(...))`: deduplicate keeping first occurrences. -/
def jsDedupAux (seen : List Word) : List Word → List Word
  | [] => []
  | a :: l => if seen.contains a then jsDedupAux seen l
              else a :: jsDedupAux (a :: seen) l

/-- `Array.from(new Set(...))`: deduplicate keeping first occurrences. -/
def jsDedup (l : List Word) : List Word := jsDedupAux [] l

/-- `fetchFrenchWordList` of `main.js` as a pure function of the persisted
valid words and the fetched lines: concatenate, normalize each entry,
filter, and deduplicate. -/
def fetchFrenchWordList (validWords : List Word) (lines : List Word) : List Word :=
  jsDedup (((validWords ++ lines).map normalizeEntry).filter isGoodWord)

/-- The word pool built in `startGame`: the fetched list filtered to the
board's word length and cleared of persisted invalid words. -/
def sessionWordPool (validStored : List Word) (lines : List Word)
    (invalidStored : List Word) (lettersCount : Nat) : List Word :=
  ((fetchFrenchWordList validStored lines).filter
    (fun w => w.length == lettersCount)).filter
    (fun w => !invalidStored.contains w)

end Motus

namespace Motus

/-! ## The orchestrator (`startGame`) -/

/-- `addInvalidWord` of `main.js`: append the word to the persisted invalid
list unless already present. -/
def addInvalidWord (words : List Word) (w : Word) : List Word :=
  if words.contains w then words else words ++ [w]

/-- `addValidWord` of `main.js`: append the word to the persisted valid
list unless it is already present or is `null` (modelled by `none`). -/
def addValidWord (words : List Word) (w : Option Word) : List Word :=
  match w with
  | none => words
  | some v => if words.contains v then words else words ++ [v]

/-- `wordPool.splice(wordPool.indexOf(word), 1)`: remove the first
occurrence of the word if present; `indexOf` returns `-1` otherwise and
`splice(-1, 1)` then removes the last element. -/
def spliceRemove (pool : List Word) (w : Word) : List Word :=
  if pool.contains w then pool.erase w else pool.dropLast

/-- The external board, per the interface contracts of the specification:
a fixed dictionary deciding acceptance, the feedback rows read back from
the grid, the win test, and the end-of-game lost flag and revealed
solution (`none` when `getSolutionWord` yields `null`). -/
structure Board where
  dict : List Word
  feedback : Nat → List Cell
  isWin : Word → Bool
  lostAtEnd : Bool
  solution : Option Word

/-- The mutable state of the `startGame` loop. -/
structure LoopState where
  wordPool : List Word
  validAnswers : List Word
  invalidWords : List Word
  validWords : List Word
  gameState : GameState
  attempt : Nat
deriving DecidableEq

/-- The constraint state after the update at the top of a loop iteration:
for `attempt > 0` the previous row's feedback is folded in. -/
def iterGameState (board : Board) (st : LoopState) : GameState :=
  if st.attempt > 0 then updateGameState st.gameState (board.feedback (st.attempt - 1))
  else st.gameState

/-- The word the iteration submits: the selector's candidate, or the first
already-validated answer as fallback, or `none` (the loop breaks). -/
def selectedWord (board : Board) (st : LoopState) : Option Word :=
  match findNextCandidate st.wordPool (iterGameState board st) st.validAnswers with
  | some w => some w
  | none => st.validAnswers.head?

/-- The possible outcomes of one iteration of the `while` loop. -/
inductive IterResult where
  /-- Selector and fallback both empty: the loop breaks. -/
  | noCandidate (st : LoopState)
  /-- The board rejected the word: blocklist and retry. -/
  | rejected (w : Word) (st : LoopState)
  /-- The board accepted the word and the game continues. -/
  | accepted (w : Word) (st : LoopState)
  /-- The board accepted the word and the game is won. -/
  | won (w : Word) (st : LoopState)
deriving DecidableEq

/-- One iteration of the `while` loop of `startGame`. -/
def loopIteration (board : Board) (st : LoopState) : IterResult :=
  let st1 := { st with gameState := iterGameState board st }
  match selectedWord board st with
  | none => .noCandidate st1
  | some w =>
    if board.dict.contains w then
      let st2 := { st1 with validAnswers := st1.validAnswers ++ [w] }
      if board.isWin w then
        .won w { st2 with validWords := addValidWord st2.validWords (some w) }
      else
        .accepted w { st2 with attempt := st2.attempt + 1 }
    else
      .rejected w { st1 with invalidWords := addInvalidWord st1.invalidWords w,
                             wordPool := spliceRemove st1.wordPool w }

/-- How a session ended. -/
inductive Outcome where
  | wonGame
  | exhausted
  | outOfAttempts
  | fuelOut
deriving DecidableEq

/-- The `while` loop of `startGame`, with explicit fuel (the loop can spin
on rejections without consuming attempts, so it is not structurally
bounded by `maxAttempts`). -/
def runLoop (board : Board) (maxAttempts : Nat) : Nat → LoopState → LoopState × Outcome
  | 0, st => (st, .fuelOut)
  | fuel + 1, st =>
    if st.attempt < maxAttempts then
      match loopIteration board st with
      | .noCandidate st' => (st', .exhausted)
      | .rejected _ st' => runLoop board maxAttempts fuel st'
      | .accepted _ st' => runLoop board maxAttempts fuel st'
      | .won _ st' => (st', .wonGame)
    else (st, .outOfAttempts)

/-- The code after the `while` loop of `startGame`: on a lost game the
revealed solution is recorded to the persisted valid-word list. -/
def finishGame (board : Board) (st : LoopState) : LoopState :=
  if board.lostAtEnd then
    { st with validWords := addValidWord st.validWords board.solution }
  else st

end Motus

namespace Motus

/-! ## Basic lemmas about the embedded JS collections -/

theorem contains_iff {α} [BEq α] [LawfulBEq α] {l : List α} {x : α} :
    l.contains x = true ↔ x ∈ l := by
  simp

theorem mem_addToSet {s : List Char} {c x : Char} :
    x ∈ addToSet s c ↔ x ∈ s ∨ x = c := by
  unfold addToSet
  split
  · next h =>
    have hc : c ∈ s := contains_iff.mp h
    constructor
    · exact Or.inl
    · rintro (hx | rfl)
      · exact hx
      · exact hc
  · next h => simp [List.mem_append]

theorem self_mem_addToSet {s : List Char} {c : Char} : c ∈ addToSet s c :=
  mem_addToSet.mpr (Or.inr rfl)

theorem mem_addToSet_of_mem {s : List Char} {c x : Char} (h : x ∈ s) :
    x ∈ addToSet s c :=
  mem_addToSet.mpr (Or.inl h)

theorem mem_delFromSet {s : List Char} {c x : Char} :
    x ∈ delFromSet s c ↔ x ∈ s ∧ x ≠ c := by
  simp [delFromSet, List.mem_filter]

theorem self_not_mem_delFromSet {s : List Char} {c : Char} :
    c ∉ delFromSet s c := by
  intro h
  exact (mem_delFromSet.mp h).2 rfl

theorem mem_of_mem_setKey {m : List (Nat × Char)} {i : Nat} {c : Char}
    {q : Nat × Char} (h : q ∈ setKey m i c) : q ∈ m ∨ q = (i, c) := by
  induction m with
  | nil => simpa [setKey] using h
  | cons p m ih =>
    unfold setKey at h
    split at h
    · rcases List.mem_cons.mp h with h | h
      · exact Or.inr h
      · exact Or.inl (List.mem_cons_of_mem _ h)
    · rcases List.mem_cons.mp h with h | h
      · exact Or.inl (h ▸ List.mem_cons_self _ _)
      · rcases ih h with h | h
        · exact Or.inl (List.mem_cons_of_mem _ h)
        · exact Or.inr h

theorem self_mem_setKey {m : List (Nat × Char)} {i : Nat} {c : Char} :
    (i, c) ∈ setKey m i c := by
  induction m with
  | nil => simp [setKey]
  | cons p m ih =>
    unfold setKey
    split
    · exact List.mem_cons_self _ _
    · exact List.mem_cons_of_mem _ ih

theorem mem_setKey_of_ne {m : List (Nat × Char)} {i k : Nat} {c v : Char}
    (h : (k, v) ∈ m) (hne : k ≠ i) : (k, v) ∈ setKey m i c := by
  induction m with
  | nil => simp at h
  | cons p m ih =>
    unfold setKey
    rcases List.mem_cons.mp h with rfl | h
    · split
      · next he => exact absurd he hne
      · exact List.mem_cons_self _ _
    · split
      · exact List.mem_cons_of_mem _ h
      · exact List.mem_cons_of_mem _ (ih h)

theorem lookup_pushExcluded (m : List (Char × List Nat)) (c : Char) (i : Nat)
    (l : Char) :
    ((pushExcluded m c i).lookup l).getD [] =
      if l = c then (m.lookup l).getD [] ++ [i] else (m.lookup l).getD [] := by
  induction m with
  | nil =>
    by_cases h : l = c
    · simp [pushExcluded, List.lookup, h]
    · simp [pushExcluded, List.lookup, beq_false_of_ne h, h]
  | cons p m ih =>
    obtain ⟨k, v⟩ := p
    unfold pushExcluded
    split
    · next hp =>
      simp only at hp
      subst hp
      by_cases h : l = k
      · subst h
        simp [List.lookup]
      · simp [List.lookup, beq_false_of_ne h, h]
    · next hp =>
      simp only at hp
      by_cases h : l = k
      · subst h
        simp [List.lookup, hp]
      · simp [List.lookup, beq_false_of_ne h, ih]

end Motus

namespace Motus

/-! ## The consistency invariant (C2, C3) -/

/-- No letter of `absent` is a `wellPlaced` value or a `misplaced` member. -/
def Consistent (st : GameState) : Prop :=
  ∀ l ∈ st.absent, l ∉ wellPlacedValues st ∧ l ∉ st.misplaced

theorem consistent_applyEntry {st : GameState} (i : Nat) (c : Cell)
    (h : Consistent st) : Consistent (applyEntry st i c) := by
  intro l hl
  by_cases h1 : c.status = "wellPlaced"
  · unfold applyEntry at hl ⊢
    rw [if_pos h1] at hl ⊢
    dsimp only at hl ⊢
    obtain ⟨hl1, hl2⟩ := mem_delFromSet.mp hl
    obtain ⟨hv, hm⟩ := h l hl1
    refine ⟨?_, hm⟩
    intro hmem
    rcases List.mem_map.mp hmem with ⟨q, hq, hq2⟩
    rcases mem_of_mem_setKey hq with hq | rfl
    · exact hv (List.mem_map.mpr ⟨q, hq, hq2⟩)
    · exact hl2 hq2.symm
  · by_cases h2 : c.status = "misplaced"
    · unfold applyEntry at hl ⊢
      rw [if_neg h1, if_pos h2] at hl ⊢
      dsimp only at hl ⊢
      obtain ⟨hl1, hl2⟩ := mem_delFromSet.mp hl
      obtain ⟨hv, hm⟩ := h l hl1
      refine ⟨hv, ?_⟩
      intro hmem
      rcases mem_addToSet.mp hmem with h' | rfl
      · exact hm h'
      · exact hl2 rfl
    · by_cases h3 : c.status = "absent"
      · unfold applyEntry at hl ⊢
        rw [if_neg h1, if_neg h2, if_pos h3] at hl ⊢
        by_cases hg : ((wellPlacedValues st).contains c.letter
            || st.misplaced.contains c.letter) = true
        · rw [if_pos hg] at hl ⊢
          exact h l hl
        · rw [if_neg hg] at hl ⊢
          dsimp only at hl ⊢
          have hg' : c.letter ∉ wellPlacedValues st ∧ c.letter ∉ st.misplaced := by
            constructor <;> intro hc <;> apply hg <;> simp [hc]
          rcases mem_addToSet.mp hl with h' | rfl
          · exact h l h'
          · exact hg'
      · unfold applyEntry at hl ⊢
        rw [if_neg h1, if_neg h2, if_neg h3] at hl ⊢
        exact h l hl

theorem consistent_updateFrom {st : GameState} {i : Nat} {cs : List Cell}
    (h : Consistent st) : Consistent (updateGameStateFrom st i cs) := by
  induction cs generalizing st i with
  | nil => exact h
  | cons c cs ih => exact ih (consistent_applyEntry i c h)

theorem consistent_updateGameState {st : GameState} {row : List Cell}
    (h : Consistent st) : Consistent (updateGameState st row) :=
  consistent_updateFrom h

theorem consistent_applyRows {st : GameState} (h : Consistent st)
    (rows : List (List Cell)) : Consistent (applyRows st rows) := by
  induction rows generalizing st with
  | nil => exact h
  | cons r rows ih => exact ih (consistent_updateGameState h)

/-- C2: starting from the initial constraint state (all fields empty except
`wellPlaced` seeded from pre-filled board letters), after any sequence of
`updateGameState` calls no letter is simultaneously in `absent` and in
`misplaced`, and no letter in `absent` is a value of `wellPlaced`. -/
theorem consistency_invariant (prefill : List (Option Char)) (rows : List (List Cell)) :
    ∀ l ∈ (applyRows (initGameStateFromGrid prefill) rows).absent,
      l ∉ wellPlacedValues (applyRows (initGameStateFromGrid prefill) rows) ∧
      l ∉ (applyRows (initGameStateFromGrid prefill) rows).misplaced := by
  have hinit : Consistent (initGameStateFromGrid prefill) := by
    intro l hl
    simp [initGameStateFromGrid] at hl
  exact consistent_applyRows hinit rows

/-- Witness for C2 at a concrete prefill and feedback row. -/
theorem consistency_invariant_witness :
    'z' ∉ wellPlacedValues (applyRows (initGameStateFromGrid [some 'c'])
        [[⟨'z', "absent"⟩]]) ∧
    'z' ∉ (applyRows (initGameStateFromGrid [some 'c']) [[⟨'z', "absent"⟩]]).misplaced :=
  consistency_invariant [some 'c'] [[⟨'z', "absent"⟩]] 'z' (by decide)

/-- C3: an `"absent"` feedback entry adds its letter to `absent` only when the
letter is neither a `wellPlaced` value nor in `misplaced` at that moment;
otherwise it leaves the state unchanged. -/
theorem absent_entry_guard (st : GameState) (i : Nat) (l : Char) :
    ((applyEntry st i ⟨l, "absent"⟩).absent =
      if l ∈ wellPlacedValues st ∨ l ∈ st.misplaced then st.absent
      else addToSet st.absent l) ∧
    (l ∈ wellPlacedValues st ∨ l ∈ st.misplaced → applyEntry st i ⟨l, "absent"⟩ = st) ∧
    (l ∉ wellPlacedValues st → l ∉ st.misplaced →
      l ∈ (applyEntry st i ⟨l, "absent"⟩).absent) := by
  have hne1 : ("absent" : String) ≠ "wellPlaced" := by decide
  have hne2 : ("absent" : String) ≠ "misplaced" := by decide
  have hguard : ((wellPlacedValues st).contains l || st.misplaced.contains l) = true ↔
      (l ∈ wellPlacedValues st ∨ l ∈ st.misplaced) := by
    simp
  unfold applyEntry
  dsimp only
  rw [if_neg hne1, if_neg hne2, if_pos rfl]
  by_cases hk : l ∈ wellPlacedValues st ∨ l ∈ st.misplaced
  · rw [if_pos (hguard.mpr hk), if_pos hk]
    exact ⟨rfl, fun _ => rfl, fun hv hm => absurd hk (by simp [hv, hm])⟩
  · rw [if_neg (fun hb => hk (hguard.mp hb)), if_neg hk]
    exact ⟨rfl, fun h => absurd h hk, fun _ _ => self_mem_addToSet⟩

/-- Witness for C3: a known letter leaves the state unchanged, an unknown
letter lands in `absent`. -/
theorem absent_entry_guard_witness :
    applyEntry ⟨[(0, 'c')], ['a'], [], []⟩ 1 ⟨'a', "absent"⟩ =
        ⟨[(0, 'c')], ['a'], [], []⟩ ∧
    'z' ∈ (applyEntry ⟨[(0, 'c')], ['a'], [], []⟩ 1 ⟨'z', "absent"⟩).absent :=
  ⟨(absent_entry_guard ⟨[(0, 'c')], ['a'], [], []⟩ 1 'a').2.1 (Or.inr (by decide)),
   (absent_entry_guard ⟨[(0, 'c')], ['a'], [], []⟩ 1 'z').2.2 (by decide) (by decide)⟩

end Motus

namespace Motus

/-! ## Positive evidence shields a letter from `absent` (C4) -/

theorem safe_applyEntry {st : GameState} {i : Nat} {c : Cell} {L : Char} {k : Nat}
    (hk : k < i)
    (hknown : (k, L) ∈ st.wellPlaced ∨ L ∈ st.misplaced)
    (habs : L ∉ st.absent) :
    ((k, L) ∈ (applyEntry st i c).wellPlaced ∨ L ∈ (applyEntry st i c).misplaced) ∧
      L ∉ (applyEntry st i c).absent := by
  by_cases h1 : c.status = "wellPlaced"
  · unfold applyEntry
    rw [if_pos h1]
    dsimp only
    constructor
    · rcases hknown with hw | hm
      · exact Or.inl (mem_setKey_of_ne hw (Nat.ne_of_lt hk))
      · exact Or.inr hm
    · intro hmem
      exact habs (mem_delFromSet.mp hmem).1
  · by_cases h2 : c.status = "misplaced"
    · unfold applyEntry
      rw [if_neg h1, if_pos h2]
      dsimp only
      constructor
      · rcases hknown with hw | hm
        · exact Or.inl hw
        · exact Or.inr (mem_addToSet_of_mem hm)
      · intro hmem
        exact habs (mem_delFromSet.mp hmem).1
    · by_cases h3 : c.status = "absent"
      · unfold applyEntry
        rw [if_neg h1, if_neg h2, if_pos h3]
        split
        · exact ⟨hknown, habs⟩
        · next hg =>
          dsimp only
          refine ⟨hknown, ?_⟩
          intro hmem
          rcases mem_addToSet.mp hmem with h' | he
          · exact habs h'
          · apply hg
            rw [← he]
            rcases hknown with hw | hm
            · have hv : L ∈ wellPlacedValues st := List.mem_map.mpr ⟨(k, L), hw, rfl⟩
              simp [hv]
            · simp [hm]
      · unfold applyEntry
        rw [if_neg h1, if_neg h2, if_neg h3]
        exact ⟨hknown, habs⟩

theorem safe_updateFrom {st : GameState} {i : Nat} {cs : List Cell} {L : Char} {k : Nat}
    (hk : k < i)
    (hknown : (k, L) ∈ st.wellPlaced ∨ L ∈ st.misplaced)
    (habs : L ∉ st.absent) :
    L ∉ (updateGameStateFrom st i cs).absent := by
  induction cs generalizing st i with
  | nil => exact habs
  | cons c cs ih =>
    obtain ⟨hknown', habs'⟩ := safe_applyEntry hk hknown habs
    exact ih (Nat.lt_succ_of_lt hk) hknown' habs'

theorem positive_clears_absent {st : GameState} {i : Nat} {cs : List Cell} {L : Char}
    (h : ∃ c ∈ cs, c.letter = L ∧ (c.status = "wellPlaced" ∨ c.status = "misplaced")) :
    L ∉ (updateGameStateFrom st i cs).absent := by
  induction cs generalizing st i with
  | nil => simp at h
  | cons c cs ih =>
    rcases h with ⟨c', hc', hl, hs⟩
    rcases List.mem_cons.mp hc' with rfl | hmem
    · rcases hs with hs | hs
      · have h1 : (i, L) ∈ (applyEntry st i c').wellPlaced := by
          unfold applyEntry
          rw [if_pos hs]
          dsimp only
          rw [hl]
          exact self_mem_setKey
        have h2 : L ∉ (applyEntry st i c').absent := by
          unfold applyEntry
          rw [if_pos hs]
          dsimp only
          rw [hl]
          exact self_not_mem_delFromSet
        show L ∉ (updateGameStateFrom (applyEntry st i c') (i + 1) cs).absent
        exact safe_updateFrom (Nat.lt_succ_self i) (Or.inl h1) h2
      · have hne : c'.status ≠ "wellPlaced" := by rw [hs]; decide
        have h1 : L ∈ (applyEntry st i c').misplaced := by
          unfold applyEntry
          rw [if_neg hne, if_pos hs]
          dsimp only
          rw [hl]
          exact self_mem_addToSet
        have h2 : L ∉ (applyEntry st i c').absent := by
          unfold applyEntry
          rw [if_neg hne, if_pos hs]
          dsimp only
          rw [hl]
          exact self_not_mem_delFromSet
        show L ∉ (updateGameStateFrom (applyEntry st i c') (i + 1) cs).absent
        exact safe_updateFrom (Nat.lt_succ_self i) (Or.inr h1) h2
    · show L ∉ (updateGameStateFrom (applyEntry st i c) (i + 1) cs).absent
      exact ih ⟨c', hmem, hl, hs⟩

/-- C4: if a single feedback row contains both a positive entry
(`wellPlaced` or `misplaced`) and an `absent` entry for the same letter,
then after `updateGameState` that letter is not in `absent`, in whatever
order the entries appear in the row. -/
theorem double_letter_not_absent (st : GameState) (row : List Cell) (L : Char)
    (hpos : ∃ c ∈ row, c.letter = L ∧ (c.status = "wellPlaced" ∨ c.status = "misplaced"))
    (_habs : ∃ c ∈ row, c.letter = L ∧ c.status = "absent") :
    L ∉ (updateGameState st row).absent ∧
      ∀ row' : List Cell, row.Perm row' → L ∉ (updateGameState st row').absent := by
  refine ⟨positive_clears_absent hpos, fun row' hp => positive_clears_absent ?_⟩
  rcases hpos with ⟨c, hc, h⟩
  exact ⟨c, hp.mem_iff.mp hc, h⟩

/-- Witness for C4: the spec scenario `[{a, wellPlaced}, {a, absent}]` in
both orders. -/
theorem double_letter_not_absent_witness :
    'a' ∉ (updateGameState ⟨[], [], [], []⟩
        [⟨'a', "wellPlaced"⟩, ⟨'a', "absent"⟩]).absent ∧
    'a' ∉ (updateGameState ⟨[], [], [], []⟩
        [⟨'a', "absent"⟩, ⟨'a', "wellPlaced"⟩]).absent := by
  have h := double_letter_not_absent ⟨[], [], [], []⟩
    [⟨'a', "wellPlaced"⟩, ⟨'a', "absent"⟩] 'a'
    ⟨⟨'a', "wellPlaced"⟩, by decide, rfl, Or.inl rfl⟩
    ⟨⟨'a', "absent"⟩, by decide, rfl, rfl⟩
  exact ⟨h.1, h.2 [⟨'a', "absent"⟩, ⟨'a', "wellPlaced"⟩] (by decide)⟩

end Motus

namespace Motus

/-! ## Monotonicity of the constraint collections (C5) -/

theorem excluded_applyEntry_mem {st : GameState} {i : Nat} {c : Cell} {l : Char}
    {p : Nat} (h : p ∈ excludedOf st l) : p ∈ excludedOf (applyEntry st i c) l := by
  by_cases h1 : c.status = "wellPlaced"
  · unfold applyEntry
    rw [if_pos h1]
    exact h
  · by_cases h2 : c.status = "misplaced"
    · unfold applyEntry
      rw [if_neg h1, if_pos h2]
      show p ∈ ((pushExcluded st.excludedPositions c.letter i).lookup l).getD []
      rw [lookup_pushExcluded]
      split
      · exact List.mem_append_left _ h
      · exact h
    · by_cases h3 : c.status = "absent"
      · unfold applyEntry
        rw [if_neg h1, if_neg h2, if_pos h3]
        split
        · exact h
        · exact h
      · unfold applyEntry
        rw [if_neg h1, if_neg h2, if_neg h3]
        exact h

theorem misplaced_applyEntry_mem {st : GameState} {i : Nat} {c : Cell} {l : Char}
    (h : l ∈ st.misplaced) : l ∈ (applyEntry st i c).misplaced := by
  by_cases h1 : c.status = "wellPlaced"
  · unfold applyEntry
    rw [if_pos h1]
    exact h
  · by_cases h2 : c.status = "misplaced"
    · unfold applyEntry
      rw [if_neg h1, if_pos h2]
      exact mem_addToSet_of_mem h
    · by_cases h3 : c.status = "absent"
      · unfold applyEntry
        rw [if_neg h1, if_neg h2, if_pos h3]
        split
        · exact h
        · exact h
      · unfold applyEntry
        rw [if_neg h1, if_neg h2, if_neg h3]
        exact h

theorem absent_applyEntry_mem {st : GameState} {i : Nat} {c : Cell} {l : Char}
    (h : l ∈ st.absent) :
    l ∈ (applyEntry st i c).absent ∨
      (c.letter = l ∧ (c.status = "wellPlaced" ∨ c.status = "misplaced")) := by
  by_cases h1 : c.status = "wellPlaced"
  · by_cases he : l = c.letter
    · exact Or.inr ⟨he.symm, Or.inl h1⟩
    · left
      unfold applyEntry
      rw [if_pos h1]
      exact mem_delFromSet.mpr ⟨h, he⟩
  · by_cases h2 : c.status = "misplaced"
    · by_cases he : l = c.letter
      · exact Or.inr ⟨he.symm, Or.inr h2⟩
      · left
        unfold applyEntry
        rw [if_neg h1, if_pos h2]
        exact mem_delFromSet.mpr ⟨h, he⟩
    · by_cases h3 : c.status = "absent"
      · left
        unfold applyEntry
        rw [if_neg h1, if_neg h2, if_pos h3]
        split
        · exact h
        · exact mem_addToSet_of_mem h
      · left
        unfold applyEntry
        rw [if_neg h1, if_neg h2, if_neg h3]
        exact h

theorem monotone_updateFrom (st : GameState) (i : Nat) (cs : List Cell) :
    (∀ l p, p ∈ excludedOf st l → p ∈ excludedOf (updateGameStateFrom st i cs) l) ∧
    (∀ l, l ∈ st.misplaced → l ∈ (updateGameStateFrom st i cs).misplaced) ∧
    (∀ l, l ∈ st.absent → l ∈ (updateGameStateFrom st i cs).absent ∨
      ∃ c ∈ cs, c.letter = l ∧ (c.status = "wellPlaced" ∨ c.status = "misplaced")) := by
  induction cs generalizing st i with
  | nil => exact ⟨fun _ _ h => h, fun _ h => h, fun _ h => Or.inl h⟩
  | cons c cs ih =>
    refine ⟨?_, ?_, ?_⟩
    · intro l p hp
      exact (ih (applyEntry st i c) (i + 1)).1 l p (excluded_applyEntry_mem hp)
    · intro l hl
      exact (ih (applyEntry st i c) (i + 1)).2.1 l (misplaced_applyEntry_mem hl)
    · intro l hl
      rcases absent_applyEntry_mem hl with h | h
      · rcases (ih (applyEntry st i c) (i + 1)).2.2 l h with h' | ⟨c', hc', hrest⟩
        · exact Or.inl h'
        · exact Or.inr ⟨c', List.mem_cons_of_mem _ hc', hrest⟩
      · exact Or.inr ⟨c, List.mem_cons_self _ _, h⟩

/-- C5: across successive updates, `excludedPositions[letter]`, `misplaced`
and `absent` only grow, except that a letter leaves `absent` only when a
`wellPlaced` or `misplaced` feedback entry for it arrives. -/
theorem monotonicity_of_constraints (st : GameState) (rows : List (List Cell)) :
    (∀ l p, p ∈ excludedOf st l → p ∈ excludedOf (applyRows st rows) l) ∧
    (∀ l, l ∈ st.misplaced → l ∈ (applyRows st rows).misplaced) ∧
    (∀ l, l ∈ st.absent → l ∈ (applyRows st rows).absent ∨
      ∃ row ∈ rows, ∃ c ∈ row, c.letter = l ∧
        (c.status = "wellPlaced" ∨ c.status = "misplaced")) := by
  induction rows generalizing st with
  | nil => exact ⟨fun _ _ h => h, fun _ h => h, fun _ h => Or.inl h⟩
  | cons r rows ih =>
    refine ⟨?_, ?_, ?_⟩
    · intro l p hp
      exact (ih (updateGameState st r)).1 l p ((monotone_updateFrom st 0 r).1 l p hp)
    · intro l hl
      exact (ih (updateGameState st r)).2.1 l ((monotone_updateFrom st 0 r).2.1 l hl)
    · intro l hl
      rcases (monotone_updateFrom st 0 r).2.2 l hl with h | hc
      · rcases (ih (updateGameState st r)).2.2 l h with h' | ⟨row', hrow', hrest⟩
        · exact Or.inl h'
        · exact Or.inr ⟨row', List.mem_cons_of_mem _ hrow', hrest⟩
      · exact Or.inr ⟨r, List.mem_cons_self _ _, hc⟩

/-- Witness for C5: a recorded excluded position survives an update, and an
absent letter that receives positive evidence is accounted for by the
exception clause. -/
theorem monotonicity_of_constraints_witness :
    2 ∈ excludedOf (applyRows ⟨[], [], ['z'], [('a', [2])]⟩
        [[⟨'z', "misplaced"⟩]]) 'a' ∧
    ('z' ∈ (applyRows ⟨[], [], ['z'], [('a', [2])]⟩ [[⟨'z', "misplaced"⟩]]).absent ∨
      ∃ row ∈ [[(⟨'z', "misplaced"⟩ : Cell)]], ∃ c ∈ row, c.letter = 'z' ∧
        (c.status = "wellPlaced" ∨ c.status = "misplaced")) :=
  ⟨(monotonicity_of_constraints ⟨[], [], ['z'], [('a', [2])]⟩
      [[⟨'z', "misplaced"⟩]]).1 'a' 2 (by decide),
   (monotonicity_of_constraints ⟨[], [], ['z'], [('a', [2])]⟩
      [[⟨'z', "misplaced"⟩]]).2.2 'z' (by decide)⟩

end Motus

namespace Motus

/-! ## Selector correctness (C1) and feedback defaulting (C9) -/

/-- The four filter conditions of §4.4 of the specification, stated in the
spec's own terms. -/
def specWordOk (st : GameState) (history : List Word) (word : Word) : Prop :=
  (∀ p ∈ st.wellPlaced, word.get? p.1 = some p.2) ∧
  (∀ l ∈ st.misplaced, l ∈ word ∧ ∀ pos ∈ excludedOf st l, word.get? pos ≠ some l) ∧
  (∀ l ∈ st.absent, l ∉ word) ∧
  word ∉ history

theorem specWordOk_iff {st : GameState} {history : List Word} {word : Word} :
    specWordOk st history word ↔ wordMatches st history word = true := by
  unfold specWordOk wordMatches
  simp [List.all_eq_true, List.any_eq_true, not_exists]
  tauto

theorem find?_split {α} (p : α → Bool) (l : List α) (a : α)
    (h : l.find? p = some a) :
    ∃ l₁ l₂, l = l₁ ++ a :: l₂ ∧ ∀ x ∈ l₁, p x = false := by
  induction l with
  | nil => simp [List.find?] at h
  | cons b t ih =>
    by_cases hp : p b = true
    · rw [List.find?_cons_of_pos _ hp] at h
      obtain rfl := Option.some.inj h
      exact ⟨[], t, rfl, by simp⟩
    · have hp' : p b = false := by simpa using hp
      rw [List.find?_cons_of_neg _ hp] at h
      obtain ⟨l₁, l₂, rfl, hall⟩ := ih h
      refine ⟨b :: l₁, l₂, rfl, ?_⟩
      intro x hx
      rcases List.mem_cons.mp hx with rfl | hx
      · exact hp'
      · exact hall x hx

/-- C1: `findNextCandidate` returns a word only if it satisfies all four
filter conditions of §4.4; it returns the first such word in corpus order;
and it returns `none` iff no corpus word satisfies them. -/
theorem selector_correct (wordList : List Word) (st : GameState) (history : List Word) :
    (∀ w, findNextCandidate wordList st history = some w →
      specWordOk st history w ∧
      ∃ l₁ l₂, wordList = l₁ ++ w :: l₂ ∧ ∀ v ∈ l₁, ¬ specWordOk st history v) ∧
    (findNextCandidate wordList st history = none ↔
      ∀ w ∈ wordList, ¬ specWordOk st history w) := by
  constructor
  · intro w hw
    have hw' : wordList.find? (wordMatches st history) = some w := hw
    refine ⟨specWordOk_iff.mpr (List.find?_some hw'), ?_⟩
    obtain ⟨l₁, l₂, rfl, hall⟩ := find?_split _ _ _ hw'
    refine ⟨l₁, l₂, rfl, fun v hv hok => ?_⟩
    rw [specWordOk_iff] at hok
    simp [hall v hv] at hok
  · have : findNextCandidate wordList st history = none ↔
        ∀ w ∈ wordList, ¬ wordMatches st history w = true := List.find?_eq_none
    rw [this]
    constructor
    · intro h w hw hok
      exact h w hw (specWordOk_iff.mp hok)
    · intro h w hw hok
      exact h w hw (specWordOk_iff.mpr hok)

/-- Witness for C1: the spec's selector scenario, where `"canot"` is the
first match. -/
theorem selector_correct_witness :
    specWordOk ⟨[(0, 'c')], ['a'], ['z'], [('a', [2])]⟩ [] ['c','a','n','o','t'] ∧
    ∃ l₁ l₂,
      [['c','a','n','o','t'], ['c','a','v','e','z'], ['a','c','t','o','r']] =
        l₁ ++ ['c','a','n','o','t'] :: l₂ ∧
      ∀ v ∈ l₁, ¬ specWordOk ⟨[(0, 'c')], ['a'], ['z'], [('a', [2])]⟩ [] v :=
  (selector_correct [['c','a','n','o','t'], ['c','a','v','e','z'], ['a','c','t','o','r']]
    ⟨[(0, 'c')], ['a'], ['z'], [('a', [2])]⟩ []).1 ['c','a','n','o','t'] (by decide)

/-- C9: every feedback cell whose derived status is not one of the two
positive values has status `"absent"`. -/
theorem malformed_status_defaults_absent (row : List (Char × List String)) :
    ∀ cell ∈ getRowData row, cell.status ≠ "wellPlaced" → cell.status ≠ "misplaced" →
      cell.status = "absent" := by
  intro cell hcell h1 h2
  rcases List.mem_map.mp hcell with ⟨p, _, rfl⟩
  show cellStatus p.2 = "absent"
  have h1' : cellStatus p.2 ≠ "wellPlaced" := h1
  have h2' : cellStatus p.2 ≠ "misplaced" := h2
  unfold cellStatus at h1' h2' ⊢
  by_cases hg : p.2.contains "green" = true
  · rw [if_pos hg] at h1'
    exact absurd rfl h1'
  · rw [if_neg hg] at h2' ⊢
    by_cases ho : p.2.contains "orange" = true
    · rw [if_pos ho] at h2'
      exact absurd rfl h2'
    · rw [if_neg ho]

/-- Witness for C9: a cell with an unrecognized marker class defaults to
`"absent"`. -/
theorem malformed_status_defaults_absent_witness :
    ({ letter := 'a', status := cellStatus ["blue"] } : Cell).status = "absent" :=
  malformed_status_defaults_absent [('a', ["blue"])]
    { letter := 'a', status := cellStatus ["blue"] } (by decide) (by decide) (by decide)

end Motus

namespace Motus

/-! ## Orchestrator behaviour (C6, C7, C10) and corpus building (C8) -/

theorem runLoop_succ (board : Board) (maxAttempts fuel : Nat) (st : LoopState) :
    runLoop board maxAttempts (fuel + 1) st =
      if st.attempt < maxAttempts then
        match loopIteration board st with
        | .noCandidate st' => (st', .exhausted)
        | .rejected _ st' => runLoop board maxAttempts fuel st'
        | .accepted _ st' => runLoop board maxAttempts fuel st'
        | .won _ st' => (st', .wonGame)
      else (st, .outOfAttempts) := rfl

theorem selectedWord_mem_pool_or_answers {board : Board} {st : LoopState} {w : Word}
    (h : selectedWord board st = some w) :
    w ∈ st.wordPool ∨ w ∈ st.validAnswers := by
  unfold selectedWord at h
  cases hf : findNextCandidate st.wordPool (iterGameState board st) st.validAnswers with
  | some u =>
    rw [hf] at h
    obtain rfl := Option.some.inj h
    exact Or.inl (List.mem_of_find?_eq_some hf)
  | none =>
    rw [hf] at h
    cases hva : st.validAnswers with
    | nil => rw [hva] at h; simp at h
    | cons v rest =>
      rw [hva] at h
      obtain rfl : v = w := Option.some.inj h
      exact Or.inr (List.mem_cons_self _ _)

/-- The session invariant justifying the hypothesis of C6: every word in
`validAnswers` was accepted by the board, hence is in its dictionary.  The
loop preserves it. -/
theorem validAnswers_dict_invariant {board : Board} {st : LoopState}
    (hva : ∀ v ∈ st.validAnswers, v ∈ board.dict) :
    ∀ w st', (loopIteration board st = .rejected w st' ∨
              loopIteration board st = .accepted w st' ∨
              loopIteration board st = .won w st') →
      ∀ v ∈ st'.validAnswers, v ∈ board.dict := by
  intro w st' hres
  unfold loopIteration at hres
  cases hsel : selectedWord board st with
  | none =>
    rw [hsel] at hres
    rcases hres with h | h | h <;> simp at h
  | some u =>
    rw [hsel] at hres
    dsimp only at hres
    by_cases hdict : board.dict.contains u = true
    · have hu : u ∈ board.dict := by simpa using hdict
      rw [if_pos hdict] at hres
      by_cases hwin : board.isWin u = true
      · rw [if_pos hwin] at hres
        rcases hres with h | h | h <;> simp at h
        obtain ⟨-, rfl⟩ := h
        intro v hv
        dsimp only at hv
        rcases List.mem_append.mp hv with hv | hv
        · exact hva v hv
        · rw [List.mem_singleton.mp hv]
          exact hu
      · rw [if_neg hwin] at hres
        rcases hres with h | h | h <;> simp at h
        obtain ⟨-, rfl⟩ := h
        intro v hv
        dsimp only at hv
        rcases List.mem_append.mp hv with hv | hv
        · exact hva v hv
        · rw [List.mem_singleton.mp hv]
          exact hu
    · rw [if_neg hdict] at hres
      rcases hres with h | h | h <;> simp at h
      obtain ⟨-, rfl⟩ := h
      intro v hv
      exact hva v hv

/-- C6: in a session where every already-accepted word is in the board's
dictionary, a rejected guess is recorded to the invalid-word blocklist,
exactly that word is removed from the in-memory pool, the attempt counter
is unchanged, and the loop goes back to guessing. -/
theorem rejection_handled (board : Board) (st : LoopState) (w : Word) (st' : LoopState)
    (hva : ∀ v ∈ st.validAnswers, v ∈ board.dict)
    (h : loopIteration board st = .rejected w st') :
    st'.invalidWords = addInvalidWord st.invalidWords w ∧
    w ∈ st'.invalidWords ∧
    w ∈ st.wordPool ∧
    st'.wordPool = st.wordPool.erase w ∧
    (∃ l₁ l₂, st.wordPool = l₁ ++ w :: l₂ ∧ w ∉ l₁ ∧ st'.wordPool = l₁ ++ l₂) ∧
    st'.attempt = st.attempt ∧
    st'.validAnswers = st.validAnswers ∧
    (∀ maxAttempts fuel, st.attempt < maxAttempts →
      runLoop board maxAttempts (fuel + 1) st = runLoop board maxAttempts fuel st') := by
  have hcore : selectedWord board st = some w ∧
      board.dict.contains w = false ∧
      st' = { st with gameState := iterGameState board st,
                      invalidWords := addInvalidWord st.invalidWords w,
                      wordPool := spliceRemove st.wordPool w } := by
    unfold loopIteration at h
    cases hsel : selectedWord board st with
    | none => rw [hsel] at h; simp at h
    | some u =>
      rw [hsel] at h
      dsimp only at h
      by_cases hdict : board.dict.contains u = true
      · rw [if_pos hdict] at h
        by_cases hwin : board.isWin u = true
        · rw [if_pos hwin] at h; simp at h
        · rw [if_neg hwin] at h; simp at h
      · rw [if_neg hdict] at h
        simp at h
        obtain ⟨rfl, rfl⟩ := h
        exact ⟨rfl, by simpa using hdict, rfl⟩
  obtain ⟨hsel, hdict, rfl⟩ := hcore
  have hpool : w ∈ st.wordPool := by
    rcases selectedWord_mem_pool_or_answers hsel with hp | hp
    · exact hp
    · have hc : board.dict.contains w = true := contains_iff.mpr (hva w hp)
      rw [hdict] at hc
      exact absurd hc (by decide)
  have hcont : st.wordPool.contains w = true := contains_iff.mpr hpool
  have hsplice : spliceRemove st.wordPool w = st.wordPool.erase w := by
    unfold spliceRemove
    rw [if_pos hcont]
  obtain ⟨l₁, l₂, hnot, hsplit, herase⟩ := List.exists_erase_eq hpool
  refine ⟨rfl, ?_, hpool, hsplice, ⟨l₁, l₂, hsplit, hnot, by rw [hsplice, herase]⟩,
    rfl, rfl, ?_⟩
  · show w ∈ addInvalidWord st.invalidWords w
    unfold addInvalidWord
    split
    · next hc => exact contains_iff.mp hc
    · exact List.mem_append_right _ (List.mem_singleton.mpr rfl)
  · intro maxAttempts fuel hlt
    rw [runLoop_succ, if_pos hlt, h]

/-- Witness for C6: a one-word pool whose word the board rejects. -/
theorem rejection_handled_witness :
    (⟨[], [], [['a','b']], [], ⟨[], [], [], []⟩, 0⟩ : LoopState).invalidWords =
      addInvalidWord ([] : List Word) ['a','b'] :=
  (rejection_handled ⟨[], fun _ => [], fun _ => false, false, none⟩
    ⟨[['a','b']], [], [], [], ⟨[], [], [], []⟩, 0⟩ ['a','b']
    ⟨[], [], [['a','b']], [], ⟨[], [], [], []⟩, 0⟩
    (by simp) (by decide)).1

end Motus

namespace Motus

/-- C7: when the selector returns no candidate, a non-empty history makes
the iteration resubmit its earliest entry; an empty history ends the loop
in the exhausted failure state without submitting anything. -/
theorem fallback_policy (board : Board) (st : LoopState)
    (hnone : findNextCandidate st.wordPool (iterGameState board st) st.validAnswers
      = none) :
    (∀ v rest, st.validAnswers = v :: rest →
      selectedWord board st = some v ∧
      ∃ st', loopIteration board st = .rejected v st' ∨
             loopIteration board st = .accepted v st' ∨
             loopIteration board st = .won v st') ∧
    (st.validAnswers = [] →
      loopIteration board st =
        .noCandidate { st with gameState := iterGameState board st } ∧
      ∀ maxAttempts fuel, st.attempt < maxAttempts →
        runLoop board maxAttempts (fuel + 1) st =
          ({ st with gameState := iterGameState board st }, Outcome.exhausted)) := by
  constructor
  · intro v rest hva
    have hsel : selectedWord board st = some v := by
      unfold selectedWord
      rw [hnone, hva]
      rfl
    refine ⟨hsel, ?_⟩
    unfold loopIteration
    rw [hsel]
    dsimp only
    by_cases hdict : board.dict.contains v = true
    · rw [if_pos hdict]
      by_cases hwin : board.isWin v = true
      · rw [if_pos hwin]
        exact ⟨_, Or.inr (Or.inr rfl)⟩
      · rw [if_neg hwin]
        exact ⟨_, Or.inr (Or.inl rfl)⟩
    · rw [if_neg hdict]
      exact ⟨_, Or.inl rfl⟩
  · intro hva
    have hsel : selectedWord board st = none := by
      unfold selectedWord
      rw [hnone, hva]
      rfl
    have hit : loopIteration board st =
        .noCandidate { st with gameState := iterGameState board st } := by
      unfold loopIteration
      rw [hsel]
    refine ⟨hit, ?_⟩
    intro maxAttempts fuel hlt
    rw [runLoop_succ, if_pos hlt, hit]

/-- Witness for C7: a session with an empty pool, once with a previously
accepted answer to fall back to and once with none. -/
theorem fallback_policy_witness :
    selectedWord ⟨[], fun _ => [], fun _ => false, false, none⟩
      ⟨[], [['a','b']], [], [], ⟨[], [], [], []⟩, 0⟩ = some ['a','b'] ∧
    loopIteration ⟨[], fun _ => [], fun _ => false, false, none⟩
      ⟨[], [], [], [], ⟨[], [], [], []⟩, 0⟩ =
      .noCandidate { (⟨[], [], [], [], ⟨[], [], [], []⟩, 0⟩ : LoopState) with
        gameState := iterGameState ⟨[], fun _ => [], fun _ => false, false, none⟩
          ⟨[], [], [], [], ⟨[], [], [], []⟩, 0⟩ } ∧
    runLoop ⟨[], fun _ => [], fun _ => false, false, none⟩ 6 1
      ⟨[], [], [], [], ⟨[], [], [], []⟩, 0⟩ =
      ({ (⟨[], [], [], [], ⟨[], [], [], []⟩, 0⟩ : LoopState) with
        gameState := iterGameState ⟨[], fun _ => [], fun _ => false, false, none⟩
          ⟨[], [], [], [], ⟨[], [], [], []⟩, 0⟩ }, Outcome.exhausted) :=
  ⟨((fallback_policy ⟨[], fun _ => [], fun _ => false, false, none⟩
      ⟨[], [['a','b']], [], [], ⟨[], [], [], []⟩, 0⟩ rfl).1 ['a','b'] [] rfl).1,
   ((fallback_policy ⟨[], fun _ => [], fun _ => false, false, none⟩
      ⟨[], [], [], [], ⟨[], [], [], []⟩, 0⟩ rfl).2 rfl).1,
   ((fallback_policy ⟨[], fun _ => [], fun _ => false, false, none⟩
      ⟨[], [], [], [], ⟨[], [], [], []⟩, 0⟩ rfl).2 rfl).2 6 0 (by decide)⟩

/-- C10: recording a `null` solution is a no-op on the persisted valid-word
list: `addValidWord` ignores `none`, so a lost game whose solution cannot
be read changes nothing. -/
theorem null_solution_not_recorded (board : Board) (st : LoopState)
    (hs : board.solution = none) :
    addValidWord st.validWords none = st.validWords ∧
    (finishGame board st).validWords = st.validWords := by
  refine ⟨rfl, ?_⟩
  unfold finishGame
  split
  · dsimp only
    rw [hs]
    rfl
  · rfl

/-- Witness for C10: a lost board with an unreadable solution. -/
theorem null_solution_not_recorded_witness :
    addValidWord [['a','b']] none = [['a','b']] ∧
    (finishGame ⟨[], fun _ => [], fun _ => false, true, none⟩
      ⟨[], [], [], [['a','b']], ⟨[], [], [], []⟩, 0⟩).validWords = [['a','b']] :=
  null_solution_not_recorded ⟨[], fun _ => [], fun _ => false, true, none⟩
    ⟨[], [], [], [['a','b']], ⟨[], [], [], []⟩, 0⟩ rfl

/-- C8: the corpus built from `["Éléphant", "eleph-ant", "ELEPHANT"]` at
target length 8 is exactly `["elephant"]`: diacritics stripped, duplicates
merged, and the hyphenated entry rejected. -/
theorem corpus_normalization_roundtrip :
    sessionWordPool []
      [['É','l','é','p','h','a','n','t'],
       ['e','l','e','p','h','-','a','n','t'],
       ['E','L','E','P','H','A','N','T']] [] 8 =
      [['e','l','e','p','h','a','n','t']] := by
  decide

end Motus
